import Mathlib

/-!
Shallow embedding of `MacCormackStepper` (src/macCormack_stepper.py) over exact
rational arithmetic.  A state is a `numVars x (nx+1)` array of values, entry
`(j, i)` holding variable `j` at grid node `i`, mirroring the numpy layout.
The grid and the physics model are the duck-typed collaborators consumed by the
stepper; they are embedded as a structure of the exact operations the stepper
calls.  The main loop of `run` is embedded with an explicit fuel parameter:
`none` means the loop did not finish within the given number of iterations.
-/

set_option synthInstance.maxSize 512

set_option allowUnsafeReducibility true in
attribute [semireducible] Rat.add Rat.mul Rat.sub Rat.inv Rat.ofScientific

namespace MacCormack

/-- The solution array: `numVars` rows, `nx+1` columns (one per grid node). -/
abbrev St (nv nx : ℕ) := Fin nv → Fin (nx + 1) → ℚ

/-- Grid1D: `nx` cells hence `nx+1` nodes, uniform spacing `dx`, node
coordinates `X`. -/
structure Grid1D (nx : ℕ) where
  dx : ℚ
  X : Fin (nx + 1) → ℚ

/-- The duck-typed model object: flux Jacobian and its eigenvalues at a
position, and the two boundary-condition updaters, which receive the boundary
coordinate, the advanced time, `dx`, `dt` and the full previous state. -/
structure Model (nv nx : ℕ) where
  jacobian : ℚ → Matrix (Fin nv) (Fin nv) ℚ
  jacEigenvalues : ℚ → Fin nv → ℚ
  applyLeftBC : ℚ → ℚ → ℚ → ℚ → St nv nx → Fin nv → ℚ
  applyRightBC : ℚ → ℚ → ℚ → ℚ → St nv nx → Fin nv → ℚ

/-- `np.amax` of a list of values (the empty case never arises for a model
with at least one variable; numpy would raise there). -/
def amax : List ℚ → ℚ
  | [] => 0
  | a :: t => t.foldl max a

/-- Lines 95-100: `lambda_max` starts at `0.0`; for each grid coordinate `x`
the eigenvalues are evaluated, their absolute values taken (`np.fabs`), the
largest (`np.amax`) is folded into the running maximum. -/
def lambdaMax {nv nx : ℕ} (m : Model nv nx) (g : Grid1D nx) : ℚ :=
  ((List.finRange (nx + 1)).map g.X).foldl
    (fun acc x => max acc (amax ((List.finRange nv).map (fun j => |m.jacEigenvalues x j|)))) 0

/-- Lines 102-106: the CFL timestep `epsilon * (dx / lambda_max)`, clamped to
`t_final - t` when `t_final - t <= dt` (non-strict comparison). -/
def stepDt {nv nx : ℕ} (eps : ℚ) (m : Model nv nx) (g : Grid1D nx) (tF t : ℚ) : ℚ :=
  if tF - t ≤ eps * (g.dx / lambdaMax m g) then tF - t else eps * (g.dx / lambdaMax m g)

/-- Lines 117-120: the left boundary value, `applyLeftBC(X[0], t_step, dx, dt,
u_prev)` with `t_step = t + dt`. -/
def stepLeftVal {nv nx : ℕ} (eps : ℚ) (m : Model nv nx) (g : Grid1D nx) (tF t : ℚ)
    (u : St nv nx) : Fin nv → ℚ :=
  m.applyLeftBC (g.X 0) (t + stepDt eps m g tF t) g.dx (stepDt eps m g tF t) u

/-- Lines 130-133: the right boundary value, `applyRightBC(X[-1], t_step, dx,
dt, u_prev)`. -/
def stepRightVal {nv nx : ℕ} (eps : ℚ) (m : Model nv nx) (g : Grid1D nx) (tF t : ℚ)
    (u : St nv nx) : Fin nv → ℚ :=
  m.applyRightBC (g.X (Fin.last nx)) (t + stepDt eps m g tF t) g.dx (stepDt eps m g tF t) u

/-- The predictor array after one iteration: the loop of lines 112-115 writes
columns `1 .. nx-1` as `u_prev[:,i] - dt * J(X[i]) @ ((u_prev[:,i+1] -
u_prev[:,i]) / dx)`; line 121 overwrites column 0 with the left boundary
value; column `nx` is never written and keeps its allocated value `0`. -/
def uPredOf {nv nx : ℕ} (m : Model nv nx) (g : Grid1D nx) (dt : ℚ) (uPrev : St nv nx)
    (leftVal : Fin nv → ℚ) : St nv nx :=
  fun j i =>
    if i.val = 0 then leftVal j
    else if h : i.val < nx then
      uPrev j i - dt * ((m.jacobian (g.X i)).mulVec
        (fun k => (uPrev k ⟨i.val + 1, Nat.succ_lt_succ h⟩ - uPrev k i) / g.dx)) j
    else 0

/-- The current-state array after one iteration: line 118 writes the left
boundary value into column 0, the corrector loop of lines 124-128 writes
columns `1 .. nx-1` as `0.5*(u_pred[:,i] + u_prev[:,i]) - 0.5*dt * J(X[i]) @
((u_pred[:,i] - u_pred[:,i-1]) / dx)`, and line 131 writes the right boundary
value into column `nx` last (so for `nx = 0` it wins over the left value). -/
def uCurOf {nv nx : ℕ} (m : Model nv nx) (g : Grid1D nx) (dt : ℚ) (uPrev uPred : St nv nx)
    (leftVal rightVal : Fin nv → ℚ) : St nv nx :=
  fun j i =>
    if i.val = nx then rightVal j
    else if i.val = 0 then leftVal j
    else 1/2 * (uPred j i + uPrev j i) - 1/2 * dt * ((m.jacobian (g.X i)).mulVec
      (fun k => (uPred k i - uPred k ⟨i.val - 1, Nat.lt_of_le_of_lt (Nat.sub_le _ _) i.isLt⟩)
        / g.dx)) j

/-- The predictor array actually used by one stepping iteration starting at
time `t` from state `u`. -/
def stepPred {nv nx : ℕ} (eps : ℚ) (m : Model nv nx) (g : Grid1D nx) (tF t : ℚ)
    (u : St nv nx) : St nv nx :=
  uPredOf m g (stepDt eps m g tF t) u (stepLeftVal eps m g tF t u)

/-- One iteration of the main loop (lines 89-139): returns the advanced time
`t_step = t + dt` and the new current state. -/
def macStep {nv nx : ℕ} (eps : ℚ) (m : Model nv nx) (g : Grid1D nx) (tF t : ℚ)
    (u : St nv nx) : ℚ × St nv nx :=
  (t + stepDt eps m g tF t,
   uCurOf m g (stepDt eps m g tF t) u (stepPred eps m g tF t u)
     (stepLeftVal eps m g tF t u) (stepRightVal eps m g tF t u))

/-- The main loop `while t < t_final` of line 87, with a fuel bound: each
iteration advances the time, replaces the working state, appends the snapshot
`(t_step, deepcopy u_cur)` to the history and increments `n_steps`.  `none`
means the fuel was exhausted before the loop condition failed. -/
def runLoop {nv nx : ℕ} (eps : ℚ) (m : Model nv nx) (g : Grid1D nx) (tF : ℚ) :
    ℕ → ℚ → St nv nx → List (ℚ × St nv nx) → ℕ →
      Option (ℕ × List (ℚ × St nv nx) × St nv nx)
  | 0, t, u, hist, n => if t < tF then none else some (n, hist, u)
  | fuel + 1, t, u, hist, n =>
    if t < tF then
      runLoop eps m g tF fuel (macStep eps m g tF t u).1 (macStep eps m g tF t u).2
        (hist ++ [((macStep eps m g tF t u).1, (macStep eps m g tF t u).2)]) (n + 1)
    else some (n, hist, u)

/-- `MacCormackStepper.run` (lines 41-139): seeds the history with
`(t_init, u_init)` (lines 80-82) and runs the main loop; returns the final
step count, the history and the final state. -/
def run {nv nx : ℕ} (eps : ℚ) (m : Model nv nx) (g : Grid1D nx) (tI tF : ℚ)
    (uI : St nv nx) (fuel : ℕ) : Option (ℕ × List (ℚ × St nv nx) × St nv nx) :=
  runLoop eps m g tF fuel tI uI [(tI, uI)] 0

/-- Junk entry used as the default of out-of-range history lookups. -/
def histDefault (nv nx : ℕ) : ℚ × St nv nx := (0, fun _ _ => 0)

/-- The `k`-th recorded history entry. -/
def histEntry {nv nx : ℕ} (H : List (ℚ × St nv nx)) (k : ℕ) : ℚ × St nv nx :=
  H.getD k (histDefault nv nx)

/-- The history list of a finished run (`[]` when the run did not finish). -/
def histOf {nv nx : ℕ} (o : Option (ℕ × List (ℚ × St nv nx) × St nv nx)) :
    List (ℚ × St nv nx) := o.elim [] (fun r => r.2.1)

/-- The step counter `n_steps` of a finished run (`0` when it did not finish). -/
def stepsOf {nv nx : ℕ} (o : Option (ℕ × List (ℚ × St nv nx) × St nv nx)) : ℕ :=
  o.elim 0 (fun r => r.1)

/-- The final working state of a finished run. -/
def finalOf {nv nx : ℕ} (o : Option (ℕ × List (ℚ × St nv nx) × St nv nx)) : St nv nx :=
  o.elim (fun _ _ => 0) (fun r => r.2.2)

/-- The history produced by a call to `run`. -/
def runHist {nv nx : ℕ} (eps : ℚ) (m : Model nv nx) (g : Grid1D nx) (tI tF : ℚ)
    (uI : St nv nx) (fuel : ℕ) : List (ℚ × St nv nx) :=
  histOf (run eps m g tI tF uI fuel)

/-- The `k`-th entry recorded by a call to `run`. -/
def runEntry {nv nx : ℕ} (eps : ℚ) (m : Model nv nx) (g : Grid1D nx) (tI tF : ℚ)
    (uI : St nv nx) (fuel : ℕ) (k : ℕ) : ℚ × St nv nx :=
  histEntry (runHist eps m g tI tF uI fuel) k

/-- The relation between consecutive history snapshots: the later one is
produced from the earlier one by one iteration of the main loop. -/
def StepRel {nv nx : ℕ} (eps : ℚ) (m : Model nv nx) (g : Grid1D nx) (tF : ℚ)
    (p q : ℚ × St nv nx) : Prop :=
  q = macStep eps m g tF p.1 p.2

/-- Materialization of a state as the nested list numpy would print: `numVars`
rows of `nx+1` values. -/
def toLists {nv nx : ℕ} (u : St nv nx) : List (List ℚ) :=
  (List.finRange nv).map (fun j => (List.finRange (nx + 1)).map (u j))

/-- The numpy shape of a materialized array: row count and length of the
first row. -/
def shapeOf (A : List (List ℚ)) : ℕ × ℕ := (A.length, (A.headD []).length)

/-! Concrete instances used by counterexamples and witnesses: one variable
(`numVars = 1`), two cells (`nx = 2`, three nodes), unit spacing. -/

/-- A 3-node grid with unit spacing. -/
def cGrid : Grid1D 2 := ⟨1, fun i => (i.val : ℚ)⟩

/-- The all-zero state on the 3-node grid. -/
def zeroSt : St 1 2 := fun _ _ => 0

/-- Unit Jacobian, unit eigenvalue, zero boundary conditions. -/
def wModel : Model 1 2 :=
  ⟨fun _ => 1, fun _ _ => 1, fun _ _ _ _ _ _ => 0, fun _ _ _ _ _ _ => 0⟩

/-- A model whose eigenvalues vanish everywhere, so `lambda_max = 0`. -/
def c7Model : Model 1 2 :=
  ⟨fun _ => 0, fun _ _ => 0, fun _ _ _ _ _ _ => 0, fun _ _ _ _ _ _ => 0⟩

/-- A model with zero Jacobian everywhere but a boundary condition that
imposes the value `42` at the left boundary. -/
def c8Model : Model 1 2 :=
  ⟨fun _ => 0, fun _ _ => 1, fun _ _ _ _ _ _ => 42, fun _ _ _ _ _ _ => 0⟩

/-- The everywhere-zero Jacobian function. -/
def zeroJacFun : ℚ → Matrix (Fin 1) (Fin 1) ℚ := fun _ => 0

end MacCormack

namespace MacCormack

/-! Basic facts about one iteration. -/

theorem macStep_fst {nv nx : ℕ} (eps : ℚ) (m : Model nv nx) (g : Grid1D nx) (tF t : ℚ)
    (u : St nv nx) : (macStep eps m g tF t u).1 = t + stepDt eps m g tF t := rfl

theorem macStep_fst_le {nv nx : ℕ} (eps : ℚ) (m : Model nv nx) (g : Grid1D nx) (tF t : ℚ)
    (u : St nv nx) (_h : t < tF) : (macStep eps m g tF t u).1 ≤ tF := by
  rw [macStep_fst]
  unfold stepDt
  split
  · linarith
  · linarith

theorem stepDt_eq_raw_of_fst_lt {nv nx : ℕ} (eps : ℚ) (m : Model nv nx) (g : Grid1D nx)
    (tF t : ℚ) (h : t + stepDt eps m g tF t < tF) :
    stepDt eps m g tF t = eps * (g.dx / lambdaMax m g) := by
  by_cases hc : tF - t ≤ eps * (g.dx / lambdaMax m g)
  · exfalso
    unfold stepDt at h
    rw [if_pos hc] at h
    linarith
  · unfold stepDt
    rw [if_neg hc]

theorem le_foldl_maxAbs (f : ℚ → ℚ) : ∀ (l : List ℚ) (a : ℚ),
    a ≤ l.foldl (fun acc x => max acc (f x)) a := by
  intro l
  induction l with
  | nil => intro a; exact le_refl a
  | cons x t ih =>
    intro a
    calc a ≤ max a (f x) := le_max_left _ _
    _ ≤ t.foldl (fun acc y => max acc (f y)) (max a (f x)) := ih _

theorem lambdaMax_nonneg {nv nx : ℕ} (m : Model nv nx) (g : Grid1D nx) :
    0 ≤ lambdaMax m g :=
  le_foldl_maxAbs _ _ 0

theorem stepDt_of_zero_lambdaMax {nv nx : ℕ} (eps : ℚ) (m : Model nv nx) (g : Grid1D nx)
    (tF t : ℚ) (hl : lambdaMax m g = 0) (ht : t < tF) : stepDt eps m g tF t = 0 := by
  unfold stepDt
  rw [hl, div_zero, mul_zero, if_neg]
  intro hc
  have : 0 < tF - t := sub_pos.mpr ht
  linarith

/-! Invariants of the main loop, proved by induction on the fuel. -/

theorem runLoop_length {nv nx : ℕ} (eps : ℚ) (m : Model nv nx) (g : Grid1D nx) (tF : ℚ)
    (fuel : ℕ) : ∀ (t : ℚ) (u : St nv nx) (hist : List (ℚ × St nv nx)) (n : ℕ)
    {N : ℕ} {H : List (ℚ × St nv nx)} {uF : St nv nx},
    runLoop eps m g tF fuel t u hist n = some (N, H, uF) →
    H.length + n = hist.length + N := by
  induction fuel with
  | zero =>
    intro t u hist n N H uF h
    rw [runLoop] at h
    split at h
    · exact absurd h (by simp)
    · simp only [Option.some.injEq, Prod.mk.injEq] at h
      obtain ⟨h1, h2, h3⟩ := h
      subst h1; subst h2; omega
  | succ fuel ih =>
    intro t u hist n N H uF h
    rw [runLoop] at h
    split at h
    · have := ih _ _ _ _ h
      simp only [List.length_append, List.length_cons, List.length_nil] at this
      omega
    · simp only [Option.some.injEq, Prod.mk.injEq] at h
      obtain ⟨h1, h2, h3⟩ := h
      subst h1; subst h2; omega

theorem runLoop_head {nv nx : ℕ} (eps : ℚ) (m : Model nv nx) (g : Grid1D nx) (tF : ℚ)
    (fuel : ℕ) : ∀ (t : ℚ) (u : St nv nx) (hist : List (ℚ × St nv nx)) (n : ℕ)
    {N : ℕ} {H : List (ℚ × St nv nx)} {uF : St nv nx},
    hist ≠ [] →
    runLoop eps m g tF fuel t u hist n = some (N, H, uF) →
    H.head? = hist.head? := by
  induction fuel with
  | zero =>
    intro t u hist n N H uF hne h
    rw [runLoop] at h
    split at h
    · exact absurd h (by simp)
    · simp only [Option.some.injEq, Prod.mk.injEq] at h
      obtain ⟨h1, h2, h3⟩ := h
      subst h2; rfl
  | succ fuel ih =>
    intro t u hist n N H uF hne h
    rw [runLoop] at h
    split at h
    · have hh := ih _ _ _ _ (by simp) h
      rw [hh]
      cases hist with
      | nil => exact absurd rfl hne
      | cons a l => rfl
    · simp only [Option.some.injEq, Prod.mk.injEq] at h
      obtain ⟨h1, h2, h3⟩ := h
      subst h2; rfl

theorem runLoop_last {nv nx : ℕ} (eps : ℚ) (m : Model nv nx) (g : Grid1D nx) (tF : ℚ)
    (fuel : ℕ) : ∀ (t : ℚ) (u : St nv nx) (hist : List (ℚ × St nv nx)) (n : ℕ)
    {N : ℕ} {H : List (ℚ × St nv nx)} {uF : St nv nx},
    t ≤ tF →
    hist.getLast? = some (t, u) →
    runLoop eps m g tF fuel t u hist n = some (N, H, uF) →
    H.getLast? = some (tF, uF) := by
  induction fuel with
  | zero =>
    intro t u hist n N H uF hle hlast h
    rw [runLoop] at h
    split at h
    · exact absurd h (by simp)
    · rename_i hguard
      simp only [Option.some.injEq, Prod.mk.injEq] at h
      obtain ⟨h1, h2, h3⟩ := h
      subst h2; subst h3
      have : t = tF := le_antisymm hle (not_lt.mp hguard)
      rw [hlast, this]
  | succ fuel ih =>
    intro t u hist n N H uF hle hlast h
    rw [runLoop] at h
    split at h
    · rename_i hguard
      exact ih _ _ _ _ (macStep_fst_le eps m g tF t u hguard)
        (List.getLast?_concat _) h
    · rename_i hguard
      simp only [Option.some.injEq, Prod.mk.injEq] at h
      obtain ⟨h1, h2, h3⟩ := h
      subst h2; subst h3
      have : t = tF := le_antisymm hle (not_lt.mp hguard)
      rw [hlast, this]

theorem runLoop_le {nv nx : ℕ} (eps : ℚ) (m : Model nv nx) (g : Grid1D nx) (tF : ℚ)
    (fuel : ℕ) : ∀ (t : ℚ) (u : St nv nx) (hist : List (ℚ × St nv nx)) (n : ℕ)
    {N : ℕ} {H : List (ℚ × St nv nx)} {uF : St nv nx},
    (∀ e ∈ hist, e.1 ≤ tF) →
    runLoop eps m g tF fuel t u hist n = some (N, H, uF) →
    ∀ e ∈ H, e.1 ≤ tF := by
  induction fuel with
  | zero =>
    intro t u hist n N H uF hall h
    rw [runLoop] at h
    split at h
    · exact absurd h (by simp)
    · simp only [Option.some.injEq, Prod.mk.injEq] at h
      obtain ⟨h1, h2, h3⟩ := h
      subst h2; exact hall
  | succ fuel ih =>
    intro t u hist n N H uF hall h
    rw [runLoop] at h
    split at h
    · rename_i hguard
      refine ih _ _ _ _ ?_ h
      intro e he
      rcases List.mem_append.mp he with he1 | he2
      · exact hall e he1
      · have : e = ((macStep eps m g tF t u).1, (macStep eps m g tF t u).2) := by
          simpa using he2
        rw [this]
        exact macStep_fst_le eps m g tF t u hguard
    · simp only [Option.some.injEq, Prod.mk.injEq] at h
      obtain ⟨h1, h2, h3⟩ := h
      subst h2; exact hall

end MacCormack

namespace MacCormack

theorem runLoop_chain {nv nx : ℕ} (eps : ℚ) (m : Model nv nx) (g : Grid1D nx) (tF : ℚ)
    (fuel : ℕ) : ∀ (t : ℚ) (u : St nv nx) (hist : List (ℚ × St nv nx)) (n : ℕ)
    {N : ℕ} {H : List (ℚ × St nv nx)} {uF : St nv nx},
    hist.getLast? = some (t, u) →
    List.Chain' (StepRel eps m g tF) hist →
    runLoop eps m g tF fuel t u hist n = some (N, H, uF) →
    List.Chain' (StepRel eps m g tF) H := by
  induction fuel with
  | zero =>
    intro t u hist n N H uF hlast hchain h
    rw [runLoop] at h
    split at h
    · exact absurd h (by simp)
    · simp only [Option.some.injEq, Prod.mk.injEq] at h
      obtain ⟨h1, h2, h3⟩ := h
      subst h2; exact hchain
  | succ fuel ih =>
    intro t u hist n N H uF hlast hchain h
    rw [runLoop] at h
    split at h
    · refine ih _ _ _ _ (List.getLast?_concat _) ?_ h
      rw [List.chain'_append]
      refine ⟨hchain, List.chain'_singleton _, ?_⟩
      intro x hx y hy
      simp only [List.head?_cons, Option.mem_def, Option.some.injEq] at hy
      rw [hlast] at hx
      simp only [Option.mem_def, Option.some.injEq] at hx
      subst hx; subst hy
      rfl
    · simp only [Option.some.injEq, Prod.mk.injEq] at h
      obtain ⟨h1, h2, h3⟩ := h
      subst h2; exact hchain

theorem runLoop_dropLast {nv nx : ℕ} (eps : ℚ) (m : Model nv nx) (g : Grid1D nx) (tF : ℚ)
    (fuel : ℕ) : ∀ (t : ℚ) (u : St nv nx) (hist : List (ℚ × St nv nx)) (n : ℕ)
    {N : ℕ} {H : List (ℚ × St nv nx)} {uF : St nv nx},
    hist.getLast? = some (t, u) →
    (∀ e ∈ hist.dropLast, e.1 < tF) →
    runLoop eps m g tF fuel t u hist n = some (N, H, uF) →
    ∀ e ∈ H.dropLast, e.1 < tF := by
  induction fuel with
  | zero =>
    intro t u hist n N H uF hlast hdrop h
    rw [runLoop] at h
    split at h
    · exact absurd h (by simp)
    · simp only [Option.some.injEq, Prod.mk.injEq] at h
      obtain ⟨h1, h2, h3⟩ := h
      subst h2; exact hdrop
  | succ fuel ih =>
    intro t u hist n N H uF hlast hdrop h
    rw [runLoop] at h
    split at h
    · rename_i hguard
      refine ih _ _ _ _ (List.getLast?_concat _) ?_ h
      rw [List.dropLast_concat]
      intro e he
      have hsplit := List.dropLast_append_getLast? (t, u) hlast
      rw [← hsplit] at he
      rcases List.mem_append.mp he with he1 | he2
      · exact hdrop e he1
      · have : e = (t, u) := by simpa using he2
        rw [this]
        exact hguard
    · simp only [Option.some.injEq, Prod.mk.injEq] at h
      obtain ⟨h1, h2, h3⟩ := h
      subst h2; exact hdrop

theorem runLoop_preserve {nv nx : ℕ} (eps : ℚ) (m : Model nv nx) (g : Grid1D nx) (tF : ℚ)
    (P : St nv nx → Prop)
    (hP : ∀ (t : ℚ) (u : St nv nx), P u → P (macStep eps m g tF t u).2)
    (fuel : ℕ) : ∀ (t : ℚ) (u : St nv nx) (hist : List (ℚ × St nv nx)) (n : ℕ)
    {N : ℕ} {H : List (ℚ × St nv nx)} {uF : St nv nx},
    P u →
    (∀ e ∈ hist, P e.2) →
    runLoop eps m g tF fuel t u hist n = some (N, H, uF) →
    ∀ e ∈ H, P e.2 := by
  induction fuel with
  | zero =>
    intro t u hist n N H uF hu hall h
    rw [runLoop] at h
    split at h
    · exact absurd h (by simp)
    · simp only [Option.some.injEq, Prod.mk.injEq] at h
      obtain ⟨h1, h2, h3⟩ := h
      subst h2; exact hall
  | succ fuel ih =>
    intro t u hist n N H uF hu hall h
    rw [runLoop] at h
    split at h
    · refine ih _ _ _ _ (hP t u hu) ?_ h
      intro e he
      rcases List.mem_append.mp he with he1 | he2
      · exact hall e he1
      · have : e = ((macStep eps m g tF t u).1, (macStep eps m g tF t u).2) := by
          simpa using he2
        rw [this]
        exact hP t u hu
    · simp only [Option.some.injEq, Prod.mk.injEq] at h
      obtain ⟨h1, h2, h3⟩ := h
      subst h2; exact hall

end MacCormack

namespace MacCormack

/-- Consecutive recorded entries are related by one iteration of the loop. -/
theorem runHist_consec {nv nx : ℕ} (eps : ℚ) (m : Model nv nx) (g : Grid1D nx)
    (tI tF : ℚ) (uI : St nv nx) (fuel : ℕ) (k : ℕ)
    (hk : k + 1 < (runHist eps m g tI tF uI fuel).length) :
    runEntry eps m g tI tF uI fuel (k + 1) =
      macStep eps m g tF (runEntry eps m g tI tF uI fuel k).1
        (runEntry eps m g tI tF uI fuel k).2 := by
  cases hr : run eps m g tI tF uI fuel with
  | none =>
    rw [runHist, hr] at hk
    simp [histOf] at hk
  | some r =>
    obtain ⟨N, H, uF⟩ := r
    have hH : runHist eps m g tI tF uI fuel = H := by rw [runHist, hr]; rfl
    rw [hH] at hk
    have hchain : List.Chain' (StepRel eps m g tF) H :=
      runLoop_chain eps m g tF fuel tI uI [(tI, uI)] 0 rfl (List.chain'_singleton _) hr
    have hcons := List.chain'_iff_get.mp hchain k (by omega)
    rw [runEntry, runEntry, hH, histEntry, histEntry,
      List.getD_eq_getElem _ _ hk, List.getD_eq_getElem _ _ (by omega)]
    exact hcons

/-- Every non-final recorded entry has time strictly below `t_final`. -/
theorem runHist_lt_final {nv nx : ℕ} (eps : ℚ) (m : Model nv nx) (g : Grid1D nx)
    (tI tF : ℚ) (uI : St nv nx) (fuel : ℕ) (k : ℕ)
    (hk : k + 2 < (runHist eps m g tI tF uI fuel).length) :
    (runEntry eps m g tI tF uI fuel (k + 1)).1 < tF := by
  cases hr : run eps m g tI tF uI fuel with
  | none =>
    rw [runHist, hr] at hk
    simp [histOf] at hk
  | some r =>
    obtain ⟨N, H, uF⟩ := r
    have hH : runHist eps m g tI tF uI fuel = H := by rw [runHist, hr]; rfl
    rw [hH] at hk
    have hdrop := runLoop_dropLast eps m g tF fuel tI uI [(tI, uI)] 0 rfl (by simp) hr
    have hkk : k + 1 < H.dropLast.length := by
      rw [List.length_dropLast]; omega
    have h1 := hdrop (H.dropLast[k + 1]) (List.getElem_mem hkk)
    simp only [List.getElem_dropLast] at h1
    rw [runEntry, hH, histEntry, List.getD_eq_getElem _ _ (by omega)]
    exact h1

end MacCormack

namespace MacCormack

/-- Claim C3: for a run with `t_init < t_final` that returns, the clamp
`dt = t_final - t` (triggered by the non-strict test `t_final - t <= dt`)
makes the history satisfy: length is `n_steps + 1`, the first entry is
`(t_init, u_init)`, the last entry has time exactly `t_final` (its state being
the final working state), and no recorded time overshoots `t_final`. -/
theorem run_history_endpoints {nv nx : ℕ} (eps : ℚ) (m : Model nv nx) (g : Grid1D nx)
    (tI tF : ℚ) (uI : St nv nx) (fuel : ℕ)
    (hlt : tI < tF) (hs : run eps m g tI tF uI fuel ≠ none) :
    (runHist eps m g tI tF uI fuel).length = stepsOf (run eps m g tI tF uI fuel) + 1 ∧
    (runHist eps m g tI tF uI fuel).head? = some (tI, uI) ∧
    (runHist eps m g tI tF uI fuel).getLast? =
      some (tF, finalOf (run eps m g tI tF uI fuel)) ∧
    ∀ e ∈ runHist eps m g tI tF uI fuel, e.1 ≤ tF := by
  cases hr : run eps m g tI tF uI fuel with
  | none => exact absurd hr hs
  | some r =>
    obtain ⟨N, H, uF⟩ := r
    have hH : runHist eps m g tI tF uI fuel = H := by rw [runHist, hr]; rfl
    refine ⟨?_, ?_, ?_, ?_⟩
    · rw [hH]
      show H.length = N + 1
      have hlen := runLoop_length eps m g tF fuel tI uI [(tI, uI)] 0 hr
      simp only [List.length_cons, List.length_nil] at hlen
      omega
    · rw [hH]
      have hhd := runLoop_head eps m g tF fuel tI uI [(tI, uI)] 0 (by simp) hr
      rw [hhd]; rfl
    · rw [hH]
      show H.getLast? = some (tF, uF)
      exact runLoop_last eps m g tF fuel tI uI [(tI, uI)] 0 (le_of_lt hlt) rfl hr
    · rw [hH]
      refine runLoop_le eps m g tF fuel tI uI [(tI, uI)] 0 ?_ hr
      intro e he
      have : e = (tI, uI) := by simpa using he
      rw [this]
      exact le_of_lt hlt

/-- Claim C3 witness: the hypotheses are satisfiable on a concrete run. -/
theorem run_history_endpoints_witness :
    (0 : ℚ) < 1/2 ∧ run (1/4) wModel cGrid 0 (1/2) zeroSt 5 ≠ none ∧
    ((runHist (1/4) wModel cGrid 0 (1/2) zeroSt 5).length =
       stepsOf (run (1/4) wModel cGrid 0 (1/2) zeroSt 5) + 1 ∧
     (runHist (1/4) wModel cGrid 0 (1/2) zeroSt 5).head? = some (0, zeroSt) ∧
     (runHist (1/4) wModel cGrid 0 (1/2) zeroSt 5).getLast? =
       some (1/2, finalOf (run (1/4) wModel cGrid 0 (1/2) zeroSt 5)) ∧
     ∀ e ∈ runHist (1/4) wModel cGrid 0 (1/2) zeroSt 5, e.1 ≤ 1/2) :=
  ⟨by norm_num, by decide,
   run_history_endpoints (1/4) wModel cGrid 0 (1/2) zeroSt 5 (by norm_num) (by decide)⟩

/-- Claim C2: in every iteration other than the final clamped one, the
timestep actually taken (the difference of consecutive recorded times) is
`epsilon * dx / lambda_max`, so multiplying it by `lambda_max` gives back
exactly `epsilon * dx` in exact arithmetic. -/
theorem run_cfl_product {nv nx : ℕ} (eps : ℚ) (m : Model nv nx) (g : Grid1D nx)
    (tI tF : ℚ) (uI : St nv nx) (fuel : ℕ) (hl : lambdaMax m g ≠ 0) (k : ℕ)
    (hk : k + 2 < (runHist eps m g tI tF uI fuel).length) :
    ((runEntry eps m g tI tF uI fuel (k + 1)).1 -
        (runEntry eps m g tI tF uI fuel k).1) * lambdaMax m g = eps * g.dx := by
  have hcons := runHist_consec eps m g tI tF uI fuel k (by omega)
  have hlt := runHist_lt_final eps m g tI tF uI fuel k hk
  have hfst : (runEntry eps m g tI tF uI fuel (k + 1)).1 =
      (runEntry eps m g tI tF uI fuel k).1 +
        stepDt eps m g tF (runEntry eps m g tI tF uI fuel k).1 := by
    rw [hcons]; rfl
  rw [hfst] at hlt
  have hraw := stepDt_eq_raw_of_fst_lt eps m g tF
    (runEntry eps m g tI tF uI fuel k).1 hlt
  rw [hfst, add_sub_cancel_left, hraw, mul_assoc, div_mul_cancel₀ _ hl]

/-- Claim C2 witness: satisfiability of the hypotheses on a concrete run. -/
theorem run_cfl_product_witness :
    lambdaMax wModel cGrid ≠ 0 ∧ 0 + 2 < (runHist (1/4) wModel cGrid 0 (1/2) zeroSt 5).length ∧
    ((runEntry (1/4) wModel cGrid 0 (1/2) zeroSt 5 (0 + 1)).1 -
        (runEntry (1/4) wModel cGrid 0 (1/2) zeroSt 5 0).1) * lambdaMax wModel cGrid =
      (1/4) * cGrid.dx :=
  ⟨by decide, by decide,
   run_cfl_product (1/4) wModel cGrid 0 (1/2) zeroSt 5 (by decide) 0 (by decide)⟩

/-- Claim C10: the timestep of every iteration other than the final clamped
one equals the constant `epsilon * (dx / lambda_max)`: the CFL search
depends only on the fixed grid coordinates and the model, since
`jacEigenvalues` receives only a position. -/
theorem run_timestep_const {nv nx : ℕ} (eps : ℚ) (m : Model nv nx) (g : Grid1D nx)
    (tI tF : ℚ) (uI : St nv nx) (fuel : ℕ) (k : ℕ)
    (hk : k + 2 < (runHist eps m g tI tF uI fuel).length) :
    (runEntry eps m g tI tF uI fuel (k + 1)).1 -
      (runEntry eps m g tI tF uI fuel k).1 = eps * (g.dx / lambdaMax m g) := by
  have hcons := runHist_consec eps m g tI tF uI fuel k (by omega)
  have hlt := runHist_lt_final eps m g tI tF uI fuel k hk
  have hfst : (runEntry eps m g tI tF uI fuel (k + 1)).1 =
      (runEntry eps m g tI tF uI fuel k).1 +
        stepDt eps m g tF (runEntry eps m g tI tF uI fuel k).1 := by
    rw [hcons]; rfl
  rw [hfst] at hlt
  have hraw := stepDt_eq_raw_of_fst_lt eps m g tF
    (runEntry eps m g tI tF uI fuel k).1 hlt
  rw [hfst, add_sub_cancel_left, hraw]

/-- Claim C10 witness: satisfiability of the hypotheses on a concrete run. -/
theorem run_timestep_const_witness :
    0 + 2 < (runHist (1/4) wModel cGrid 0 (1/2) zeroSt 5).length ∧
    (runEntry (1/4) wModel cGrid 0 (1/2) zeroSt 5 (0 + 1)).1 -
      (runEntry (1/4) wModel cGrid 0 (1/2) zeroSt 5 0).1 =
      (1/4) * (cGrid.dx / lambdaMax wModel cGrid) :=
  ⟨by decide, run_timestep_const (1/4) wModel cGrid 0 (1/2) zeroSt 5 0 (by decide)⟩

end MacCormack

namespace MacCormack

/-- Claim C1: in every stepping iteration, for every interior node
`i` in `[1, nx-1]` the predictor array holds
`u_prev[:,i] - dt * J(X[i]) @ ((u_prev[:,i+1] - u_prev[:,i]) / dx)` and the
recorded next state holds
`0.5*(u_pred[:,i] + u_prev[:,i]) - 0.5*dt * J(X[i]) @ ((u_pred[:,i] -
u_pred[:,i-1]) / dx)`, the Jacobian being evaluated at node `i` in both
stages; `dt` is the difference of the consecutive recorded times. -/
theorem run_predictor_corrector {nv nx : ℕ} (eps : ℚ) (m : Model nv nx) (g : Grid1D nx)
    (tI tF : ℚ) (uI : St nv nx) (fuel : ℕ) (k : ℕ)
    (hk : k + 1 < (runHist eps m g tI tF uI fuel).length)
    (i : Fin (nx + 1)) (h0 : 0 < i.val) (hn : i.val < nx) (j : Fin nv) :
    stepPred eps m g tF (runEntry eps m g tI tF uI fuel k).1
        (runEntry eps m g tI tF uI fuel k).2 j i =
      (runEntry eps m g tI tF uI fuel k).2 j i -
        ((runEntry eps m g tI tF uI fuel (k + 1)).1 -
          (runEntry eps m g tI tF uI fuel k).1) *
        ((m.jacobian (g.X i)).mulVec
          (fun l => ((runEntry eps m g tI tF uI fuel k).2 l
              ⟨i.val + 1, Nat.succ_lt_succ hn⟩ -
            (runEntry eps m g tI tF uI fuel k).2 l i) / g.dx)) j ∧
    (runEntry eps m g tI tF uI fuel (k + 1)).2 j i =
      1/2 * (stepPred eps m g tF (runEntry eps m g tI tF uI fuel k).1
          (runEntry eps m g tI tF uI fuel k).2 j i +
        (runEntry eps m g tI tF uI fuel k).2 j i) -
      1/2 * ((runEntry eps m g tI tF uI fuel (k + 1)).1 -
          (runEntry eps m g tI tF uI fuel k).1) *
        ((m.jacobian (g.X i)).mulVec
          (fun l => (stepPred eps m g tF (runEntry eps m g tI tF uI fuel k).1
              (runEntry eps m g tI tF uI fuel k).2 l i -
            stepPred eps m g tF (runEntry eps m g tI tF uI fuel k).1
              (runEntry eps m g tI tF uI fuel k).2 l
              ⟨i.val - 1, Nat.lt_of_le_of_lt (Nat.sub_le _ _) i.isLt⟩) / g.dx)) j := by
  have hcons := runHist_consec eps m g tI tF uI fuel k hk
  have hfst : (runEntry eps m g tI tF uI fuel (k + 1)).1 =
      (runEntry eps m g tI tF uI fuel k).1 +
        stepDt eps m g tF (runEntry eps m g tI tF uI fuel k).1 := by
    rw [hcons]; rfl
  have hdt : (runEntry eps m g tI tF uI fuel (k + 1)).1 -
      (runEntry eps m g tI tF uI fuel k).1 =
      stepDt eps m g tF (runEntry eps m g tI tF uI fuel k).1 := by
    rw [hfst, add_sub_cancel_left]
  constructor
  · rw [hdt]
    simp only [stepPred, uPredOf]
    rw [if_neg (Nat.pos_iff_ne_zero.mp h0), dif_pos hn]
  · rw [hdt, hcons]
    show uCurOf m g _ _ _ _ _ j i = _
    simp only [uCurOf]
    rw [if_neg (Nat.ne_of_lt hn), if_neg (Nat.pos_iff_ne_zero.mp h0)]

/-- Claim C1 witness: satisfiability of the hypotheses on a concrete run. -/
theorem run_predictor_corrector_witness :
    0 + 1 < (runHist (1/4) wModel cGrid 0 (1/2) zeroSt 5).length ∧
    0 < (1 : Fin 3).val ∧ (1 : Fin 3).val < 2 ∧
    (stepPred (1/4) wModel cGrid (1/2) (runEntry (1/4) wModel cGrid 0 (1/2) zeroSt 5 0).1
        (runEntry (1/4) wModel cGrid 0 (1/2) zeroSt 5 0).2 0 1 =
      (runEntry (1/4) wModel cGrid 0 (1/2) zeroSt 5 0).2 0 1 -
        ((runEntry (1/4) wModel cGrid 0 (1/2) zeroSt 5 (0 + 1)).1 -
          (runEntry (1/4) wModel cGrid 0 (1/2) zeroSt 5 0).1) *
        ((wModel.jacobian (cGrid.X 1)).mulVec
          (fun l => ((runEntry (1/4) wModel cGrid 0 (1/2) zeroSt 5 0).2 l
              ⟨(1 : Fin 3).val + 1, Nat.succ_lt_succ (by decide)⟩ -
            (runEntry (1/4) wModel cGrid 0 (1/2) zeroSt 5 0).2 l 1) / cGrid.dx)) 0 ∧
    (runEntry (1/4) wModel cGrid 0 (1/2) zeroSt 5 (0 + 1)).2 0 1 =
      1/2 * (stepPred (1/4) wModel cGrid (1/2)
          (runEntry (1/4) wModel cGrid 0 (1/2) zeroSt 5 0).1
          (runEntry (1/4) wModel cGrid 0 (1/2) zeroSt 5 0).2 0 1 +
        (runEntry (1/4) wModel cGrid 0 (1/2) zeroSt 5 0).2 0 1) -
      1/2 * ((runEntry (1/4) wModel cGrid 0 (1/2) zeroSt 5 (0 + 1)).1 -
          (runEntry (1/4) wModel cGrid 0 (1/2) zeroSt 5 0).1) *
        ((wModel.jacobian (cGrid.X 1)).mulVec
          (fun l => (stepPred (1/4) wModel cGrid (1/2)
              (runEntry (1/4) wModel cGrid 0 (1/2) zeroSt 5 0).1
              (runEntry (1/4) wModel cGrid 0 (1/2) zeroSt 5 0).2 l 1 -
            stepPred (1/4) wModel cGrid (1/2)
              (runEntry (1/4) wModel cGrid 0 (1/2) zeroSt 5 0).1
              (runEntry (1/4) wModel cGrid 0 (1/2) zeroSt 5 0).2 l
              ⟨(1 : Fin 3).val - 1,
                Nat.lt_of_le_of_lt (Nat.sub_le _ _) (1 : Fin 3).isLt⟩) / cGrid.dx)) 0) :=
  ⟨by decide, by decide, by decide,
   run_predictor_corrector (1/4) wModel cGrid 0 (1/2) zeroSt 5 0 (by decide) 1
     (by decide) (by decide) 0⟩

/-- Claim C4: per completed iteration, the left boundary value written into
the new state's column 0 is `applyLeftBC(X[0], t_step, dx, dt, u_prev)` and
the right boundary value written into column `nx` is
`applyRightBC(X[-1], t_step, dx, dt, u_prev)`, in both cases with
`t_step = t + dt` the advanced time and `u_prev` the full previous state;
the predictor buffer used by the corrector holds the same left value at
column 0 as the new state. -/
theorem run_boundary_application {nv nx : ℕ} (eps : ℚ) (m : Model nv nx) (g : Grid1D nx)
    (tI tF : ℚ) (uI : St nv nx) (fuel : ℕ) (k : ℕ)
    (hk : k + 1 < (runHist eps m g tI tF uI fuel).length)
    (hnx : 0 < nx) (j : Fin nv) :
    (runEntry eps m g tI tF uI fuel (k + 1)).2 j 0 =
      m.applyLeftBC (g.X 0) (runEntry eps m g tI tF uI fuel (k + 1)).1 g.dx
        ((runEntry eps m g tI tF uI fuel (k + 1)).1 -
          (runEntry eps m g tI tF uI fuel k).1)
        (runEntry eps m g tI tF uI fuel k).2 j ∧
    (runEntry eps m g tI tF uI fuel (k + 1)).2 j (Fin.last nx) =
      m.applyRightBC (g.X (Fin.last nx)) (runEntry eps m g tI tF uI fuel (k + 1)).1 g.dx
        ((runEntry eps m g tI tF uI fuel (k + 1)).1 -
          (runEntry eps m g tI tF uI fuel k).1)
        (runEntry eps m g tI tF uI fuel k).2 j ∧
    stepPred eps m g tF (runEntry eps m g tI tF uI fuel k).1
        (runEntry eps m g tI tF uI fuel k).2 j 0 =
      (runEntry eps m g tI tF uI fuel (k + 1)).2 j 0 := by
  have hcons := runHist_consec eps m g tI tF uI fuel k hk
  have hfst : (runEntry eps m g tI tF uI fuel (k + 1)).1 =
      (runEntry eps m g tI tF uI fuel k).1 +
        stepDt eps m g tF (runEntry eps m g tI tF uI fuel k).1 := by
    rw [hcons]; rfl
  have hdt : (runEntry eps m g tI tF uI fuel (k + 1)).1 -
      (runEntry eps m g tI tF uI fuel k).1 =
      stepDt eps m g tF (runEntry eps m g tI tF uI fuel k).1 := by
    rw [hfst, add_sub_cancel_left]
  have h0nx : ¬((0 : Fin (nx + 1)).val = nx) := by
    simp only [Fin.val_zero]
    omega
  have h00 : (0 : Fin (nx + 1)).val = 0 := Fin.val_zero _
  refine ⟨?_, ?_, ?_⟩
  · rw [hdt, hfst, hcons]
    show uCurOf m g _ _ _ _ _ j 0 = _
    simp only [uCurOf]
    rw [if_neg h0nx, if_pos h00]
    rfl
  · rw [hdt, hfst, hcons]
    show uCurOf m g _ _ _ _ _ j (Fin.last nx) = _
    simp only [uCurOf]
    rw [if_pos (Fin.val_last nx)]
    rfl
  · rw [hcons]
    show stepPred eps m g tF _ _ j 0 = uCurOf m g _ _ _ _ _ j 0
    simp only [stepPred, uPredOf, uCurOf]
    rw [if_pos h00, if_neg h0nx, if_pos h00]

/-- Claim C4 witness: satisfiability of the hypotheses on a concrete run. -/
theorem run_boundary_application_witness :
    0 + 1 < (runHist (1/4) wModel cGrid 0 (1/2) zeroSt 5).length ∧ 0 < 2 ∧
    ((runEntry (1/4) wModel cGrid 0 (1/2) zeroSt 5 (0 + 1)).2 0 0 =
      wModel.applyLeftBC (cGrid.X 0) (runEntry (1/4) wModel cGrid 0 (1/2) zeroSt 5 (0 + 1)).1
        cGrid.dx
        ((runEntry (1/4) wModel cGrid 0 (1/2) zeroSt 5 (0 + 1)).1 -
          (runEntry (1/4) wModel cGrid 0 (1/2) zeroSt 5 0).1)
        (runEntry (1/4) wModel cGrid 0 (1/2) zeroSt 5 0).2 0 ∧
    (runEntry (1/4) wModel cGrid 0 (1/2) zeroSt 5 (0 + 1)).2 0 (Fin.last 2) =
      wModel.applyRightBC (cGrid.X (Fin.last 2))
        (runEntry (1/4) wModel cGrid 0 (1/2) zeroSt 5 (0 + 1)).1 cGrid.dx
        ((runEntry (1/4) wModel cGrid 0 (1/2) zeroSt 5 (0 + 1)).1 -
          (runEntry (1/4) wModel cGrid 0 (1/2) zeroSt 5 0).1)
        (runEntry (1/4) wModel cGrid 0 (1/2) zeroSt 5 0).2 0 ∧
    stepPred (1/4) wModel cGrid (1/2) (runEntry (1/4) wModel cGrid 0 (1/2) zeroSt 5 0).1
        (runEntry (1/4) wModel cGrid 0 (1/2) zeroSt 5 0).2 0 0 =
      (runEntry (1/4) wModel cGrid 0 (1/2) zeroSt 5 (0 + 1)).2 0 0) :=
  ⟨by decide, by decide,
   run_boundary_application (1/4) wModel cGrid 0 (1/2) zeroSt 5 0 (by decide) (by decide) 0⟩

end MacCormack

namespace MacCormack

/-- Claim C6 counterexample: with `t_init = 1 > 0 = t_final`, `run` raises
nothing and returns normally, its history already seeded with the initial
entry, refuting the claimed `InvalidRangeError` at entry. -/
theorem run_inverted_range_cex :
    run (1/4) wModel cGrid 1 0 zeroSt 3 = some (0, [(1, zeroSt)], zeroSt) := by
  decide

/-- Claim C6 amended: `run` performs no validation of the time range; when
`t_init >= t_final` the main loop executes zero iterations and `run` returns
normally with `n_steps = 0` and history `[(t_init, u_init)]`. -/
theorem run_inverted_range {nv nx : ℕ} (eps : ℚ) (m : Model nv nx) (g : Grid1D nx)
    (tI tF : ℚ) (uI : St nv nx) (fuel : ℕ) (h : tF ≤ tI) :
    run eps m g tI tF uI fuel = some (0, [(tI, uI)], uI) := by
  cases fuel with
  | zero => rw [run, runLoop, if_neg (not_lt.mpr h)]
  | succ fuel => rw [run, runLoop, if_neg (not_lt.mpr h)]

/-- Claim C6 amended witness: satisfiability on a concrete inverted range. -/
theorem run_inverted_range_witness :
    (0 : ℚ) ≤ 1 ∧ run (1/4) wModel cGrid 1 0 zeroSt 7 = some (0, [(1, zeroSt)], zeroSt) :=
  ⟨by norm_num, run_inverted_range (1/4) wModel cGrid 1 0 zeroSt 7 (by norm_num)⟩

/-- Claim C7 counterexample: with identically zero eigenvalues,
`lambda_max = 0`, yet no `DivergentStepError` is raised: the step computes a
degenerate timestep that leaves the time unchanged, and the loop never
finishes (here: fuel 5 is exhausted with no error). -/
theorem run_zero_lambda_cex :
    lambdaMax c7Model cGrid = 0 ∧
    (macStep (1/4) c7Model cGrid 1 0 zeroSt).1 = 0 ∧
    run (1/4) c7Model cGrid 0 1 zeroSt 5 = none := by
  refine ⟨by decide, by decide, by decide⟩

/-- Claim C7 amended: the code checks nothing about `lambda_max`.  It is
always nonnegative by construction (so the "negative" case cannot arise), and
when it is zero the computed timestep is degenerate (zero, with total
division) so the loop makes no progress: the run never completes, for any
amount of fuel, instead of stopping with a `DivergentStepError`. -/
theorem lambdaMax_unchecked :
    (∀ (nv nx : ℕ) (m : Model nv nx) (g : Grid1D nx), 0 ≤ lambdaMax m g) ∧
    (∀ (nv nx : ℕ) (eps : ℚ) (m : Model nv nx) (g : Grid1D nx) (tF : ℚ) (fuel : ℕ)
      (t : ℚ) (u : St nv nx) (hist : List (ℚ × St nv nx)) (n : ℕ),
      lambdaMax m g = 0 → t < tF →
      runLoop eps m g tF fuel t u hist n = none) := by
  constructor
  · intro nv nx m g
    exact lambdaMax_nonneg m g
  · intro nv nx eps m g tF fuel
    induction fuel with
    | zero =>
      intro t u hist n hl ht
      rw [runLoop, if_pos ht]
    | succ fuel ih =>
      intro t u hist n hl ht
      rw [runLoop, if_pos ht]
      have hfst : (macStep eps m g tF t u).1 = t := by
        rw [macStep_fst, stepDt_of_zero_lambdaMax eps m g tF t hl ht, add_zero]
      rw [hfst]
      exact ih t _ _ _ hl ht

/-- Claim C7 amended witness: satisfiability on the zero-eigenvalue model. -/
theorem lambdaMax_unchecked_witness :
    0 ≤ lambdaMax c7Model cGrid ∧
    runLoop (1/4) c7Model cGrid 1 4 0 zeroSt [(0, zeroSt)] 0 = none :=
  ⟨lambdaMax_unchecked.1 1 2 c7Model cGrid,
   lambdaMax_unchecked.2 1 2 (1/4) c7Model cGrid 1 4 0 zeroSt [(0, zeroSt)] 0
     (by decide) (by norm_num)⟩

/-- Claim C8 counterexample: a model whose Jacobian is the zero matrix at
every point but whose left boundary condition writes `42`: after one
completed step the recorded state differs from the (all-zero) initial state
at the left boundary node. -/
theorem run_zero_jacobian_cex :
    c8Model.jacobian = zeroJacFun ∧
    (runEntry (1/4) c8Model cGrid 0 (1/4) zeroSt 3 1).2 0 0 = 42 ∧
    zeroSt 0 0 = 0 ∧ (42 : ℚ) ≠ 0 :=
  ⟨rfl, by decide, rfl, by norm_num⟩

/-- Claim C8 amended: if the Jacobian is the zero matrix at every point, then
every recorded state agrees with the initial state at every interior node
`i` in `[1, nx-1]` (predictor and corrector reduce to the identity there);
the two boundary columns are still overwritten by the boundary conditions. -/
theorem run_zero_jacobian_interior {nv nx : ℕ} (eps : ℚ) (m : Model nv nx)
    (g : Grid1D nx) (tI tF : ℚ) (uI : St nv nx) (fuel : ℕ)
    (hJ : ∀ x, m.jacobian x = 0) :
    ∀ e ∈ runHist eps m g tI tF uI fuel, ∀ i : Fin (nx + 1), 0 < i.val → i.val < nx →
      ∀ j, e.2 j i = uI j i := by
  cases hr : run eps m g tI tF uI fuel with
  | none =>
    intro e he
    rw [runHist, hr] at he
    simp [histOf] at he
  | some r =>
    obtain ⟨N, H, uF⟩ := r
    have hH : runHist eps m g tI tF uI fuel = H := by rw [runHist, hr]; rfl
    intro e he i h0 hn j
    rw [hH] at he
    have hP : ∀ (t : ℚ) (u : St nv nx),
        (∀ i : Fin (nx + 1), 0 < i.val → i.val < nx → ∀ j, u j i = uI j i) →
        (∀ i : Fin (nx + 1), 0 < i.val → i.val < nx → ∀ j,
          (macStep eps m g tF t u).2 j i = uI j i) := by
      intro t u hu i h0 hn j
      have hpred : stepPred eps m g tF t u j i = u j i := by
        simp only [stepPred, uPredOf]
        rw [if_neg (Nat.pos_iff_ne_zero.mp h0), dif_pos hn, hJ (g.X i),
          Matrix.zero_mulVec]
        simp
      show uCurOf m g _ _ _ _ _ j i = uI j i
      simp only [uCurOf]
      rw [if_neg (Nat.ne_of_lt hn), if_neg (Nat.pos_iff_ne_zero.mp h0),
        hJ (g.X i), Matrix.zero_mulVec]
      simp only [Pi.zero_apply, mul_zero, sub_zero]
      rw [hpred, hu i h0 hn j]
      ring
    have hall := runLoop_preserve eps m g tF
      (fun u => ∀ i : Fin (nx + 1), 0 < i.val → i.val < nx → ∀ j, u j i = uI j i)
      hP fuel tI uI [(tI, uI)] 0 (fun _ _ _ _ => rfl) ?_ hr
    · exact hall e he i h0 hn j
    · intro e he
      have : e = (tI, uI) := by simpa using he
      rw [this]
      intro _ _ _ _
      rfl

/-- Claim C8 amended witness: satisfiability on the zero-Jacobian model. -/
theorem run_zero_jacobian_interior_witness :
    c8Model.jacobian 0 = 0 ∧
    ∀ e ∈ runHist (1/4) c8Model cGrid 0 (1/4) zeroSt 3, ∀ i : Fin 3,
      0 < i.val → i.val < 2 → ∀ j, e.2 j i = zeroSt j i :=
  ⟨rfl, run_zero_jacobian_interior (1/4) c8Model cGrid 0 (1/4) zeroSt 3 (fun _ => rfl)⟩

/-- The materialized shape of any state is `(numVars, nx+1)`. -/
theorem shapeOf_toLists {nv nx : ℕ} (hnv : 0 < nv) (u : St nv nx) :
    shapeOf (toLists u) = (nv, nx + 1) := by
  obtain ⟨nv', rfl⟩ : ∃ nv', nv = nv' + 1 := ⟨nv - 1, by omega⟩
  simp [shapeOf, toLists, List.finRange_succ]

/-- Claim C9: every state recorded in the history materializes with numpy
shape `(numVars, nx+1)`, identical to the shape of `u_init`: the run only
ever writes whole columns of the preallocated `numVars x (nx+1)` buffers and
the snapshots copy those buffers. -/
theorem run_shape_invariance {nv nx : ℕ} (eps : ℚ) (m : Model nv nx) (g : Grid1D nx)
    (tI tF : ℚ) (uI : St nv nx) (fuel : ℕ) (hnv : 0 < nv) :
    shapeOf (toLists uI) = (nv, nx + 1) ∧
    ∀ e ∈ runHist eps m g tI tF uI fuel, shapeOf (toLists e.2) = shapeOf (toLists uI) := by
  refine ⟨shapeOf_toLists hnv uI, ?_⟩
  intro e he
  rw [shapeOf_toLists hnv, shapeOf_toLists hnv]

/-- Claim C9 witness: satisfiability on a concrete run. -/
theorem run_shape_invariance_witness :
    0 < 1 ∧
    (shapeOf (toLists zeroSt) = (1, 2 + 1) ∧
     ∀ e ∈ runHist (1/4) wModel cGrid 0 (1/2) zeroSt 5,
       shapeOf (toLists e.2) = shapeOf (toLists zeroSt)) :=
  ⟨by decide, run_shape_invariance (1/4) wModel cGrid 0 (1/2) zeroSt 5 (by decide)⟩

end MacCormack
